import Mathlib

/-!
Shallow embedding of the timberjack rolling-file logger (src/timberjack.go):
the backup-name codec, the write/rotation path, close, and the retention
engine (the "mill"), with proofs of the specification claims.

Conventions: byte sizes are `Int` (Go `int64`), clock instants are Unix
milliseconds (`Int`); the broken-down form used by the timestamp layout is
`DateTime`.  Filenames are `List Char`.
-/

namespace Timberjack

/-- A broken-down calendar instant at millisecond precision, the form rendered
by the backup timestamp layout `2006-01-02T15-04-05.000`. -/
structure DateTime where
  year : Nat
  month : Nat
  day : Nat
  hour : Nat
  minute : Nat
  second : Nat
  millis : Nat
deriving DecidableEq, Repr

/-- Leap years of the proleptic Gregorian calendar, as in Go's time package. -/
def isLeap (y : Nat) : Bool :=
  (y % 4 == 0 && y % 100 != 0) || y % 400 == 0

/-- Number of days in a month of the proleptic Gregorian calendar. -/
def daysInMonth (y m : Nat) : Nat :=
  if m = 2 then (if isLeap y then 29 else 28)
  else if m = 4 ∨ m = 6 ∨ m = 9 ∨ m = 11 then 30
  else 31

/-- The field ranges accepted by Go's `time.Parse` under the backup layout
(year limited to the layout's four digits). -/
def DateTime.Valid (t : DateTime) : Prop :=
  t.year ≤ 9999 ∧ 1 ≤ t.month ∧ t.month ≤ 12 ∧ 1 ≤ t.day ∧
    t.day ≤ daysInMonth t.year t.month ∧ t.hour ≤ 23 ∧ t.minute ≤ 59 ∧
    t.second ≤ 59 ∧ t.millis ≤ 999

instance (t : DateTime) : Decidable t.Valid := by
  unfold DateTime.Valid; infer_instance

/-- Days since 1970-01-01 of a civil date (standard era-based conversion for
the proleptic Gregorian calendar), giving parsed timestamps the absolute
order Go's `time.Time` comparisons use. -/
def daysFromCivil (y m d : Int) : Int :=
  let y2 : Int := if m ≤ 2 then y - 1 else y
  let era : Int := (if 0 ≤ y2 then y2 else y2 - 399) / 400
  let yoe : Int := y2 - era * 400
  let mp : Int := if 2 < m then m - 3 else m + 9
  let doy : Int := (153 * mp + 2) / 5 + d - 1
  let doe : Int := yoe * 365 + yoe / 4 - yoe / 100 + doy
  era * 146097 + doe - 719468

/-- Milliseconds since the Unix epoch of a broken-down instant. -/
def epochMs (t : DateTime) : Int :=
  (((daysFromCivil t.year t.month t.day * 24 + t.hour) * 60 + t.minute) * 60
      + t.second) * 1000 + t.millis

/-- The ASCII digit character with value `n` (for `n < 10`). -/
def digitChar (n : Nat) : Char := Char.ofNat (48 + n)

/-- Zero-padded decimal rendering of `v` to exactly `w` digits, most
significant first, as the numeric fields of the timestamp layout require. -/
def padNat : Nat → Nat → List Char
  | 0, _ => []
  | w + 1, v => digitChar (v / 10 ^ w % 10) :: padNat w v

/-- Consume exactly `w` ASCII digits from the front of the list,
accumulating their value onto `acc`. -/
def readNat : Nat → Nat → List Char → Option (Nat × List Char)
  | 0, acc, cs => some (acc, cs)
  | w + 1, acc, c :: cs =>
      if c.isDigit then readNat w (acc * 10 + (c.toNat - 48)) cs else none
  | _ + 1, _, [] => none

/-- Consume one expected literal character. -/
def expectCh (c : Char) : List Char → Option (List Char)
  | x :: xs => if x = c then some xs else none
  | [] => none

/-- Render an instant under the fixed backup timestamp layout
`2006-01-02T15-04-05.000` (`backupTimeFormat`, src/timberjack.go:35). -/
def fmtTs (t : DateTime) : List Char :=
  padNat 4 t.year ++ '-' :: (padNat 2 t.month ++ '-' :: (padNat 2 t.day ++
    'T' :: (padNat 2 t.hour ++ '-' :: (padNat 2 t.minute ++ '-' :: (padNat 2 t.second ++
    '.' :: padNat 3 t.millis)))))

/-- Parse a string under the backup timestamp layout, with the field-range
checks Go's `time.Parse` performs; `none` on any mismatch. -/
def parseTs (cs0 : List Char) : Option DateTime := do
  let (y, cs1) ← readNat 4 0 cs0
  let cs2 ← expectCh '-' cs1
  let (mo, cs3) ← readNat 2 0 cs2
  let cs4 ← expectCh '-' cs3
  let (d, cs5) ← readNat 2 0 cs4
  let cs6 ← expectCh 'T' cs5
  let (h, cs7) ← readNat 2 0 cs6
  let cs8 ← expectCh '-' cs7
  let (mi, cs9) ← readNat 2 0 cs8
  let cs10 ← expectCh '-' cs9
  let (s, cs11) ← readNat 2 0 cs10
  let cs12 ← expectCh '.' cs11
  let (ms, cs13) ← readNat 3 0 cs12
  if cs13 = [] ∧ 1 ≤ mo ∧ mo ≤ 12 ∧ 1 ≤ d ∧ d ≤ daysInMonth y mo ∧ h ≤ 23 ∧
      mi ≤ 59 ∧ s ≤ 59 then
    some ⟨y, mo, d, h, mi, s, ms⟩
  else
    none

lemma digitChar_isDigit {d : Nat} (hd : d < 10) : (digitChar d).isDigit = true := by
  interval_cases d <;> decide

lemma digitChar_toNat {d : Nat} (hd : d < 10) : (digitChar d).toNat - 48 = d := by
  interval_cases d <;> decide

lemma readNat_padNat (w : Nat) : ∀ (v acc : Nat) (rest : List Char),
    readNat w acc (padNat w v ++ rest) = some (acc * 10 ^ w + v % 10 ^ w, rest) := by
  induction w with
  | zero => intro v acc rest; simp [readNat, padNat, Nat.mod_one]
  | succ w ih =>
      intro v acc rest
      have hd : v / 10 ^ w % 10 < 10 := Nat.mod_lt _ (by norm_num)
      have h1 : readNat (w + 1) acc (padNat (w + 1) v ++ rest)
          = readNat w (acc * 10 + (v / 10 ^ w % 10)) (padNat w v ++ rest) := by
        simp [padNat, readNat, digitChar_isDigit hd, digitChar_toNat hd]
      have hsplit : v % 10 ^ (w + 1) = v % 10 ^ w + 10 ^ w * (v / 10 ^ w % 10) := by
        rw [pow_succ, Nat.mod_mul]
      rw [h1, ih, hsplit, pow_succ]
      simp only [Option.some.injEq, Prod.mk.injEq, and_true]
      ring

lemma readNat_padNat_nil (w v acc : Nat) :
    readNat w acc (padNat w v) = some (acc * 10 ^ w + v % 10 ^ w, []) := by
  have := readNat_padNat w v acc []
  simpa using this

lemma daysInMonth_le_31 (y m : Nat) : daysInMonth y m ≤ 31 := by
  unfold daysInMonth
  split
  · split <;> omega
  · split <;> omega

/-- Parsing inverts formatting on every valid instant. -/
lemma parseTs_fmtTs (t : DateTime) (hv : t.Valid) : parseTs (fmtTs t) = some t := by
  obtain ⟨hy, hm1, hm2, hd1, hd2, hh, hmi, hs, hms⟩ := hv
  have hy' : t.year % 10 ^ 4 = t.year := Nat.mod_eq_of_lt (by omega)
  have hmo' : t.month % 10 ^ 2 = t.month := Nat.mod_eq_of_lt (by omega)
  have hd' : t.day % 10 ^ 2 = t.day := by
    have := daysInMonth_le_31 t.year t.month
    exact Nat.mod_eq_of_lt (by omega)
  have hh' : t.hour % 10 ^ 2 = t.hour := Nat.mod_eq_of_lt (by omega)
  have hmi' : t.minute % 10 ^ 2 = t.minute := Nat.mod_eq_of_lt (by omega)
  have hs' : t.second % 10 ^ 2 = t.second := Nat.mod_eq_of_lt (by omega)
  have hms' : t.millis % 10 ^ 3 = t.millis := Nat.mod_eq_of_lt (by omega)
  simp only [parseTs, fmtTs, Option.bind_eq_bind, readNat_padNat, readNat_padNat_nil,
    Option.some_bind', expectCh, Nat.zero_mul, Nat.zero_add, hy', hmo', hd', hh',
    hmi', hs', hms', if_true]
  simp [hm1, hm2, hd1, hd2, hh, hmi, hs]

/-- Split a list at the last occurrence of `c`: the parts before and after. -/
def splitLast (c : Char) : List Char → Option (List Char × List Char)
  | [] => none
  | x :: xs =>
    match splitLast c xs with
    | some (b, a) => some (x :: b, a)
    | none => if x = c then some ([], xs) else none

lemma splitLast_of_not_mem {c : Char} {l : List Char} (h : c ∉ l) :
    splitLast c l = none := by
  induction l with
  | nil => rfl
  | cons x xs ih =>
      have hx : ¬ x = c := by intro hxc; exact h (by simp [hxc])
      have hxs : c ∉ xs := by intro hm; exact h (List.mem_cons_of_mem _ hm)
      simp [splitLast, ih hxs, hx]

lemma splitLast_append_last {c : Char} {tok : List Char} (h : c ∉ tok)
    (b : List Char) : splitLast c (b ++ c :: tok) = some (b, tok) := by
  induction b with
  | nil => simp [splitLast, splitLast_of_not_mem h]
  | cons x xs ih => simp [splitLast, ih]

lemma splitLast_eq_some {c : Char} {l b a : List Char}
    (h : splitLast c l = some (b, a)) : l = b ++ c :: a := by
  induction l generalizing b a with
  | nil => simp [splitLast] at h
  | cons x xs ih =>
      rw [splitLast] at h
      cases hs : splitLast c xs with
      | some p =>
          obtain ⟨b0, a0⟩ := p
          rw [hs] at h
          simp only [Option.some.injEq, Prod.mk.injEq] at h
          obtain ⟨hb, ha⟩ := h
          subst hb; subst ha
          simp [ih hs]
      | none =>
          rw [hs] at h
          by_cases hx : x = c
          · rw [if_pos hx] at h
            simp only [Option.some.injEq, Prod.mk.injEq] at h
            obtain ⟨hb, ha⟩ := h
            subst hb; subst ha
            simp [hx]
          · rw [if_neg hx] at h
            simp at h

/-- `filepath.Ext`: the suffix starting at the final dot, empty when the
name has no dot (used by `Logger.prefixAndExt`, src/timberjack.go:449). -/
def extOf (nm : List Char) : List Char :=
  match splitLast '.' nm with
  | some (_, a) => '.' :: a
  | none => []

/-- The name with its `extOf` extension removed. -/
def basePfx (nm : List Char) : List Char :=
  match splitLast '.' nm with
  | some (b, _) => b
  | none => nm

lemma basePfx_append_extOf (nm : List Char) : basePfx nm ++ extOf nm = nm := by
  unfold basePfx extOf
  cases hs : splitLast '.' nm with
  | some p =>
      obtain ⟨b, a⟩ := p
      simpa using (splitLast_eq_some hs).symm
  | none => simp

/-- Decoder failure taxonomy (spec 4.1). -/
inductive NameErr where
  | mismatchedPfx
  | mismatchedExt
  | malformed
  | badTime
deriving DecidableEq, Repr

/-- Rotation trigger classification embedded in backup names. -/
inductive Reason where
  | size
  | time
deriving DecidableEq, Repr

/-- The reason token written into a backup filename. -/
def reasonToken : Reason → List Char
  | .size => ['s', 'i', 'z', 'e']
  | .time => ['t', 'i', 'm', 'e']

lemma reasonToken_no_dash (r : Reason) : '-' ∉ reasonToken r := by
  cases r <;> decide

/-- `compressSuffix` (src/timberjack.go:36). -/
def compressSuffix : List Char := ['.', 'g', 'z']

/-- `Logger.timeFromName` (src/timberjack.go:423), as in the src snapshot:
reject a name lacking the expected prefix or extension, then parse
everything in between under the timestamp layout. -/
def timeFromName (nm pfxA extA : List Char) : Except NameErr DateTime :=
  if pfxA <+: nm then
    if extA <:+ nm then
      match parseTs ((nm.drop pfxA.length).take
          ((nm.drop pfxA.length).length - extA.length)) with
      | some t => .ok t
      | none => .error .badTime
    else .error .mismatchedExt
  else .error .mismatchedPfx

/-- Modelled from the spec: the reason-aware decoder of the repository's
current `timeFromName` (the src snapshot parses no reason token).  Per spec
4.1 the stripped middle is split at its final dash into timestamp and reason
parts, failing as MalformedName when no separator exists. -/
def timeFromNameSpec (nm pfxA extA : List Char) : Except NameErr DateTime :=
  if pfxA <+: nm then
    if extA <:+ nm then
      match splitLast '-' ((nm.drop pfxA.length).take
          ((nm.drop pfxA.length).length - extA.length)) with
      | some (ts, _) =>
          match parseTs ts with
          | some t => .ok t
          | none => .error .badTime
      | none => .error .malformed
    else .error .mismatchedExt
  else .error .mismatchedPfx

/-- Modelled from the spec: the reason token a backup filename carries (the
segment between the final dash of the stripped middle and the extension). -/
def reasonOfName (nm pfxA extA : List Char) : Option (List Char) :=
  if pfxA <+: nm then
    if extA <:+ nm then
      match splitLast '-' ((nm.drop pfxA.length).take
          ((nm.drop pfxA.length).length - extA.length)) with
      | some (_, tok) => some tok
      | none => none
    else none
  else none

/-- `backupName` (src/timberjack.go:249), as in the src snapshot: timestamp
inserted between prefix and extension, with no reason token. -/
def backupName (base : List Char) (t : DateTime) : List Char :=
  basePfx base ++ '-' :: (fmtTs t ++ extOf base)

/-- Modelled from the spec: the reason-stamping backup-name encoder
`prefix-<timestamp>-<reason><ext>` (spec 4.1 and 6; the src snapshot's
`backupName` writes no reason token, while the repository's tests, README
and CHANGELOG v1.1.0 require it). -/
def backupNameSpec (base : List Char) (r : Reason) (t : DateTime) : List Char :=
  basePfx base ++ '-' :: (fmtTs t ++ '-' :: (reasonToken r ++ extOf base))

/-- Zone selection before formatting, mirroring `if !local { t = t.UTC() }`
(src/timberjack.go:255): the local rendition is formatted under the local
flag, the UTC rendition otherwise. -/
def backupNameAt (base : List Char) (localFlag : Bool) (tLoc tUtc : DateTime)
    (r : Reason) : List Char :=
  backupNameSpec base r (if localFlag then tLoc else tUtc)

lemma strip_mid (pfxA mid extA : List Char) :
    (((pfxA ++ (mid ++ extA)).drop pfxA.length).take
      (((pfxA ++ (mid ++ extA)).drop pfxA.length).length - extA.length)) = mid := by
  rw [List.drop_left]
  simp [List.length_append, Nat.add_sub_cancel, List.take_left]

lemma timeFromName_encode (pfxA mid extA : List Char) :
    timeFromName (pfxA ++ (mid ++ extA)) pfxA extA =
      (match parseTs mid with
        | some t => Except.ok t
        | none => Except.error NameErr.badTime) := by
  have hp : pfxA <+: pfxA ++ (mid ++ extA) := List.prefix_append _ _
  have hs : extA <:+ pfxA ++ (mid ++ extA) := ⟨pfxA ++ mid, by simp⟩
  rw [timeFromName, if_pos hp, if_pos hs, strip_mid]

lemma timeFromNameSpec_encode (pfxA mid extA : List Char) :
    timeFromNameSpec (pfxA ++ (mid ++ extA)) pfxA extA =
      (match splitLast '-' mid with
        | some (ts, _) =>
            (match parseTs ts with
              | some t => Except.ok t
              | none => Except.error NameErr.badTime)
        | none => Except.error NameErr.malformed) := by
  have hp : pfxA <+: pfxA ++ (mid ++ extA) := List.prefix_append _ _
  have hs : extA <:+ pfxA ++ (mid ++ extA) := ⟨pfxA ++ mid, by simp⟩
  rw [timeFromNameSpec, if_pos hp, if_pos hs, strip_mid]

lemma reasonOfName_encode (pfxA mid extA : List Char) :
    reasonOfName (pfxA ++ (mid ++ extA)) pfxA extA =
      (match splitLast '-' mid with
        | some (_, tok) => some tok
        | none => none) := by
  have hp : pfxA <+: pfxA ++ (mid ++ extA) := List.prefix_append _ _
  have hs : extA <:+ pfxA ++ (mid ++ extA) := ⟨pfxA ++ mid, by simp⟩
  rw [reasonOfName, if_pos hp, if_pos hs, strip_mid]

lemma parseTs_nil : parseTs [] = none := rfl

lemma timeFromName_ok_iff (nm pfxA extA : List Char) (t : DateTime) :
    timeFromName nm pfxA extA = .ok t ↔
      ∃ mid, nm = pfxA ++ (mid ++ extA) ∧ parseTs mid = some t := by
  constructor
  · intro h
    rw [timeFromName] at h
    by_cases hp : pfxA <+: nm
    · rw [if_pos hp] at h
      by_cases hsfx : extA <:+ nm
      · rw [if_pos hsfx] at h
        obtain ⟨r, hr⟩ := hp
        obtain ⟨s, hs2⟩ := hsfx
        have heq : pfxA ++ r = s ++ extA := by rw [hr, hs2]
        have hdrop : nm.drop pfxA.length = r := by rw [← hr, List.drop_left]
        rcases List.append_eq_append_iff.mp heq with ⟨a, _, ha2⟩ | ⟨c, _, hc2⟩
        · -- r = a ++ extA : the middle is a
          refine ⟨a, ?_, ?_⟩
          · rw [← hr, ha2]
          · have htake : r.take (r.length - extA.length) = a := by
              rw [ha2, List.length_append, Nat.add_sub_cancel, List.take_left]
            rw [hdrop, htake] at h
            cases hpc : parseTs a with
            | some u =>
                rw [hpc] at h
                simp only [Except.ok.injEq] at h
                rw [h]
            | none => rw [hpc] at h; simp at h
        · -- extA = c ++ r : the computed middle is empty, parsing fails
          exfalso
          have hlen : r.length - extA.length = 0 := by
            have : extA.length = c.length + r.length := by
              rw [hc2, List.length_append]
            omega
          rw [hdrop, hlen, List.take_zero, parseTs_nil] at h
          simp at h
      · rw [if_neg hsfx] at h; simp at h
    · rw [if_neg hp] at h; simp at h
  · rintro ⟨mid, rfl, hmid⟩
    rw [timeFromName_encode, hmid]

lemma timeFromName_gz (nm pfxA extA : List Char) (t : DateTime)
    (h : timeFromName nm pfxA extA = .ok t) :
    timeFromName (nm ++ compressSuffix) pfxA (extA ++ compressSuffix) = .ok t := by
  obtain ⟨mid, rfl, hmid⟩ := (timeFromName_ok_iff _ _ _ _).mp h
  have hre : (pfxA ++ (mid ++ extA)) ++ compressSuffix
      = pfxA ++ (mid ++ (extA ++ compressSuffix)) := by simp [List.append_assoc]
  rw [hre, timeFromName_encode, hmid]

/-- Configuration and mutable state of `Logger` (src/timberjack.go:68).
Sizes are in bytes (Go `int64` → `Int`); clock values are Unix ms. -/
structure Logger where
  Filename : List Char
  MaxSize : Nat
  MaxAge : Nat
  MaxBackups : Nat
  LocalTime : Bool
  Compress : Bool
  RotationInterval : Int
  size : Int
  file : Bool
  lastRotationTime : Int
deriving DecidableEq, Repr

/-- `defaultMaxSize` (src/timberjack.go:37). -/
def defaultMaxSize : Nat := 100

/-- `megabyte` (src/timberjack.go:127), at its production default value. -/
def megabyte : Int := 1024 * 1024

/-- `Logger.max` (src/timberjack.go:435): the effective size cap in bytes. -/
def Logger.max (l : Logger) : Int :=
  if l.MaxSize = 0 then (defaultMaxSize : Int) * megabyte
  else (l.MaxSize : Int) * megabyte

/-- `Logger.prefixAndExt` (src/timberjack.go:449): the base name up to its
extension plus a trailing dash, and the extension. -/
def Logger.prefixAndExt (l : Logger) : List Char × List Char :=
  (basePfx l.Filename ++ ['-'], extOf l.Filename)

/-- A directory entry of the log directory. -/
structure FSEntry where
  name : List Char
  isDir : Bool
  sz : Int
deriving DecidableEq, Repr

/-- `os.Stat` on the model directory: the entry carrying the name, if any. -/
def statFind (fs : List FSEntry) (nm : List Char) : Option FSEntry :=
  fs.find? (fun e => e.name == nm)

/-- The write-rejection condition of `Logger.Write` (src/timberjack.go:141):
a single write strictly larger than the size cap. -/
def writeRejects (l : Logger) (p : List Nat) : Prop :=
  l.max < (p.length : Int)

/-- The size-rotation condition of `Logger.Write` (src/timberjack.go:161). -/
def sizeRotateDue (l : Logger) (wlen : Nat) : Prop :=
  l.max < l.size + (wlen : Int)

/-- The interval-rotation condition of `Logger.Write` (src/timberjack.go:153). -/
def intervalRotateDue (l : Logger) (nowMs : Int) : Prop :=
  0 < l.RotationInterval ∧ l.RotationInterval ≤ nowMs - l.lastRotationTime

/-- The rotation condition of `Logger.openExistingOrNew`
(src/timberjack.go:277); note the non-strict `>=`, unlike the strict `>` of
the write path's size check. -/
def openRotateDue (l : Logger) (info : FSEntry) (wlen : Nat) : Prop :=
  l.max ≤ info.sz + (wlen : Int)

instance (l : Logger) (p : List Nat) : Decidable (writeRejects l p) := by
  unfold writeRejects; infer_instance

instance (l : Logger) (wlen : Nat) : Decidable (sizeRotateDue l wlen) := by
  unfold sizeRotateDue; infer_instance

instance (l : Logger) (nowMs : Int) : Decidable (intervalRotateDue l nowMs) := by
  unfold intervalRotateDue; infer_instance

instance (l : Logger) (info : FSEntry) (wlen : Nat) :
    Decidable (openRotateDue l info wlen) := by
  unfold openRotateDue; infer_instance

/-- `Logger.openNew` (src/timberjack.go:217): rename any existing live file
to its backup name and create a fresh, truncated live file.  The reason in
the backup name is modelled from the spec (the src snapshot stamps none).
Returns the new logger state, the directory, and the backup names created. -/
def openNew (l : Logger) (fs : List FSEntry) (r : Reason) (now : DateTime) :
    Logger × List FSEntry × List (List Char) :=
  let nm := l.Filename
  match statFind fs nm with
  | some _ =>
      let bk := backupNameSpec nm r now
      ({ l with file := true, size := 0 },
        (fs.map (fun e => if e.name = nm then { e with name := bk } else e))
          ++ [⟨nm, false, 0⟩],
        [bk])
  | none =>
      ({ l with file := true, size := 0 }, fs ++ [⟨nm, false, 0⟩], [])

/-- `Logger.rotate` (src/timberjack.go:203): close the current handle, then
open a new file, renaming the old one. -/
def rotate (l : Logger) (fs : List FSEntry) (r : Reason) (now : DateTime) :
    Logger × List FSEntry × List (List Char) :=
  openNew { l with file := false } fs r now

/-- Result of `openExistingOrNew`. -/
structure OpenRes where
  lg : Logger
  fs : List FSEntry
  backups : List (List Char)
deriving Repr

/-- `Logger.openExistingOrNew` (src/timberjack.go:265). -/
def openExistingOrNew (l : Logger) (fs : List FSEntry) (now : DateTime)
    (wlen : Nat) : OpenRes :=
  let nm := l.Filename
  match statFind fs nm with
  | none =>
      let (l2, fs2, bks) := openNew l fs .size now
      ⟨l2, fs2, bks⟩
  | some info =>
      if openRotateDue l info wlen then
        let (l2, fs2, bks) := rotate l fs .size now
        ⟨l2, fs2, bks⟩
      else
        ⟨{ l with file := true, size := info.sz }, fs, []⟩

/-- Result of `Write`: bytes written, success flag, new state, directory,
the rotation-reason trace, and the backup names created. -/
structure WriteRes where
  n : Nat
  ok : Bool
  lg : Logger
  fs : List FSEntry
  reasons : List Reason
  backups : List (List Char)
deriving Repr

/-- `Logger.Write` (src/timberjack.go:136): reject oversize writes, open
lazily, evaluate the interval-rotation condition first and the
size-rotation condition second, then append.  The `reasons` trace records
each rotation's trigger, and `backups` the backup names created, both
stamped as the spec prescribes (the src snapshot stamps no reason). -/
def writeM (l0 : Logger) (fs0 : List FSEntry) (now : DateTime) (p : List Nat) :
    WriteRes :=
  if writeRejects l0 p then ⟨0, false, l0, fs0, [], []⟩
  else
    let s1 :=
      if l0.file then (l0, fs0, ([] : List (List Char)))
      else
        let r := openExistingOrNew l0 fs0 now p.length
        ({ r.lg with lastRotationTime := epochMs now }, r.fs, r.backups)
    let l1 := s1.1
    let fs1 := s1.2.1
    let bk1 := s1.2.2
    let s2 :=
      if intervalRotateDue l1 (epochMs now) then
        let ra := rotate l1 fs1 .time now
        ({ ra.1 with lastRotationTime := epochMs now }, ra.2.1, ra.2.2,
          [Reason.time])
      else (l1, fs1, [], ([] : List Reason))
    let l2 := s2.1
    let fs2 := s2.2.1
    let bk2 := s2.2.2.1
    let rs2 := s2.2.2.2
    let s3 :=
      if sizeRotateDue l2 p.length then
        let ra := rotate l2 fs2 .size now
        (ra.1, ra.2.1, ra.2.2, [Reason.size])
      else (l2, fs2, [], ([] : List Reason))
    let l3 := s3.1
    let fs3 := s3.2.1
    let bk3 := s3.2.2.1
    let rs3 := s3.2.2.2
    let l4 := { l3 with size := l3.size + (p.length : Int) }
    let fs4 := fs3.map (fun e =>
      if e.name = l3.Filename then { e with sz := e.sz + (p.length : Int) } else e)
    ⟨p.length, true, l4, fs4, rs2 ++ rs3, bk1 ++ bk2 ++ bk3⟩

/-- Result of `close`: whether an error was returned, and the new state. -/
structure CloseRes where
  errored : Bool
  lg : Logger
deriving DecidableEq, Repr

/-- `Logger.close` (src/timberjack.go:180): a no-op without an open handle;
otherwise the handle is closed (`osCloseFails` is the outcome of the
underlying `file.Close()`) and cleared. -/
def closeM (l : Logger) (osCloseFails : Bool) : CloseRes :=
  if l.file then ⟨osCloseFails, { l with file := false }⟩
  else ⟨false, l⟩

/-- `logInfo` (src/timberjack.go:506): a backup file name together with the
instant parsed from it, as milliseconds since the epoch. -/
structure logInfo where
  name : List Char
  timestamp : Int
deriving DecidableEq, Repr

/-- The ordering used by `byFormatTime` (src/timberjack.go:514): newest
first. -/
def keyGE (a b : logInfo) : Prop := b.timestamp ≤ a.timestamp

instance : DecidableRel keyGE := fun a b =>
  inferInstanceAs (Decidable (b.timestamp ≤ a.timestamp))

instance : IsTotal logInfo keyGE :=
  ⟨fun a b => (le_total b.timestamp a.timestamp).imp id id⟩

instance : IsTrans logInfo keyGE :=
  ⟨fun _ _ _ hab hbc => le_trans hbc hab⟩

/-- Classification of one directory entry by `Logger.oldLogFiles`
(src/timberjack.go:397): directories are skipped, and a file is a backup
when its name decodes under the expected extension, or under the extension
plus the compression suffix. -/
def classify (l : Logger) (e : FSEntry) : Option logInfo :=
  if e.isDir then none
  else
    match timeFromName e.name l.prefixAndExt.1 l.prefixAndExt.2 with
    | .ok t => some ⟨e.name, epochMs t⟩
    | .error _ =>
        match timeFromName e.name l.prefixAndExt.1
            (l.prefixAndExt.2 ++ compressSuffix) with
        | .ok t => some ⟨e.name, epochMs t⟩
        | .error _ => none

/-- `Logger.oldLogFiles` (src/timberjack.go:388): the classified backups of
the directory, sorted newest first by the instant in the name. -/
def oldLogFiles (l : Logger) (dir : List FSEntry) : List logInfo :=
  List.insertionSort keyGE (dir.filterMap (classify l))

/-- `strings.TrimSuffix(name, compressSuffix)` (src/timberjack.go:319). -/
def trimGz (nm : List Char) : List Char :=
  if compressSuffix <:+ nm then nm.take (nm.length - compressSuffix.length)
  else nm

/-- Insertion into the `preserved` set of `millRunOnce`
(src/timberjack.go:316), kept as a duplicate-free list. -/
def presInsert (pres : List (List Char)) (nm : List Char) : List (List Char) :=
  if nm ∈ pres then pres else pres ++ [nm]

/-- The MaxBackups pass of `millRunOnce` (src/timberjack.go:315): walk the
sorted list accumulating distinct trimmed names; once more than `maxB`
distinct logical backups have been seen, further files go to the remove
list.  Returns (remaining, removed), each in input order. -/
def millSplit (maxB : Nat) : List (List Char) → List logInfo →
    List logInfo × List logInfo
  | _, [] => ([], [])
  | pres, f :: fs =>
      if maxB < (presInsert pres (trimGz f.name)).length then
        ((millSplit maxB (presInsert pres (trimGz f.name)) fs).1,
          f :: (millSplit maxB (presInsert pres (trimGz f.name)) fs).2)
      else
        (f :: (millSplit maxB (presInsert pres (trimGz f.name)) fs).1,
          (millSplit maxB (presInsert pres (trimGz f.name)) fs).2)

/-- `compressLogFile` (src/timberjack.go:458) effect on the directory: the
destination `name.gz` is created (truncating any previous file of that
name) and the source removed on success; when the destination name is held
by a directory, opening it fails before anything is written, so the
directory is left unchanged.  The compressed size is not modelled. -/
def applyCompress (dir : List FSEntry) (f : logInfo) : List FSEntry :=
  if (statFind dir (f.name ++ compressSuffix)).any (fun d => d.isDir) then dir
  else
    (dir.filter (fun e =>
        !decide (e.name = f.name ++ compressSuffix) && !decide (e.name = f.name)))
      ++ [⟨f.name ++ compressSuffix, false, 0⟩]

/-- The MaxBackups enforcement of `millRunOnce` (src/timberjack.go:315),
guarded exactly as in the source. -/
def millCountPass (l : Logger) (files0 : List logInfo) :
    List logInfo × List logInfo :=
  if 0 < l.MaxBackups ∧ l.MaxBackups < files0.length then
    millSplit l.MaxBackups [] files0
  else (files0, [])

/-- The MaxAge enforcement of `millRunOnce` (src/timberjack.go:331):
whatever survived the count pass is partitioned against the cutoff
`now - MaxAge` days (strict `Before`). -/
def millAgePass (l : Logger) (files1 : List logInfo) (nowMs : Int) :
    List logInfo × List logInfo :=
  if 0 < l.MaxAge then
    (files1.filter (fun f =>
        !decide (f.timestamp < nowMs - 86400000 * (l.MaxAge : Int))),
      files1.filter (fun f =>
        decide (f.timestamp < nowMs - 86400000 * (l.MaxAge : Int))))
  else (files1, [])

/-- The compression list of `millRunOnce` (src/timberjack.go:346): the
surviving backups not already carrying the compression suffix. -/
def millCompressList (l : Logger) (files2 : List logInfo) : List logInfo :=
  if l.Compress then
    files2.filter (fun f => !decide (compressSuffix <:+ f.name))
  else []

/-- Result of one mill cycle: the classified file list, the files marked
for removal, the files compressed, and the resulting directory. -/
structure MillRes where
  files : List logInfo
  remove : List logInfo
  compress : List logInfo
  newDir : List FSEntry
deriving Repr

/-- `Logger.millRunOnce` (src/timberjack.go:303): no-op when no policy is
configured; otherwise enforce MaxBackups on the sorted backups, then
MaxAge, delete everything marked, and gzip the surviving uncompressed
backups when compression is on. -/
def millRunOnce (l : Logger) (dir : List FSEntry) (nowMs : Int) : MillRes :=
  if l.MaxBackups = 0 ∧ l.MaxAge = 0 ∧ l.Compress = false then
    ⟨[], [], [], dir⟩
  else
    let files0 := oldLogFiles l dir
    let c := millCountPass l files0
    let a := millAgePass l c.1 nowMs
    let comp := millCompressList l a.1
    let rem := c.2 ++ a.2
    let dir1 := dir.filter (fun e => !decide (e.name ∈ rem.map logInfo.name))
    ⟨files0, rem, comp, comp.foldl applyCompress dir1⟩

/-- One mill cycle as a transformation of the log directory. -/
def millCycle (l : Logger) (nowMs : Int) (dir : List FSEntry) : List FSEntry :=
  (millRunOnce l dir nowMs).newDir

/-! ## Claim theorems -/

/-- C1: for every write whose length strictly exceeds the configured size
cap, `Write` returns `(0, error)`, performs no partial write, attempts no
rotation, and creates or modifies no file: the result reports zero bytes
and failure while the logger state, directory, rotation trace and backup
list are all untouched. -/
theorem write_oversize_rejected (l : Logger) (fs : List FSEntry)
    (now : DateTime) (p : List Nat) (h : writeRejects l p) :
    writeM l fs now p = ⟨0, false, l, fs, [], []⟩ := by
  rw [writeM, if_pos h]

/-- Witness for `write_oversize_rejected`: a 1048577-byte write against a
one-megabyte cap. -/
theorem write_oversize_rejected_witness :
    writeM ⟨"foo.log".toList, 1, 0, 0, false, false, 0, 0, true, 0⟩ []
        ⟨2020, 1, 1, 0, 0, 0, 0⟩ (List.replicate 1048577 0)
      = ⟨0, false, ⟨"foo.log".toList, 1, 0, 0, false, false, 0, 0, true, 0⟩,
          [], [], []⟩ :=
  write_oversize_rejected _ _ _ _ (by
    norm_num [writeRejects, Logger.max, megabyte, List.length_replicate])

/-- C9: `Close` is idempotent: after any close, a second close returns no
error and leaves no open handle (the model is total, so neither call can
panic), and a close returns an error only when it actually closed an open
handle whose underlying `file.Close()` failed. -/
theorem close_idempotent (l : Logger) (b1 b2 : Bool) :
    (closeM (closeM l b1).lg b2).errored = false ∧
      (closeM (closeM l b1).lg b2).lg.file = false ∧
      ((closeM l b1).errored = true → l.file = true ∧ b1 = true) ∧
      (b1 = false → (closeM l b1).errored = false) := by
  cases hf : l.file <;> simp [closeM, hf]

/-- Witness for `close_idempotent` on a logger with an open handle whose
underlying close succeeds. -/
theorem close_idempotent_witness :
    (closeM (closeM ⟨"foo.log".toList, 1, 0, 0, false, false, 0, 0, true, 0⟩
        false).lg false).errored = false ∧
      (closeM (closeM ⟨"foo.log".toList, 1, 0, 0, false, false, 0, 0, true, 0⟩
          false).lg false).lg.file = false ∧
      ((closeM ⟨"foo.log".toList, 1, 0, 0, false, false, 0, 0, true, 0⟩
          false).errored = true →
        Logger.file ⟨"foo.log".toList, 1, 0, 0, false, false, 0, 0, true, 0⟩ = true ∧
          false = true) ∧
      (false = false →
        (closeM ⟨"foo.log".toList, 1, 0, 0, false, false, 0, 0, true, 0⟩
            false).errored = false) :=
  close_idempotent ⟨"foo.log".toList, 1, 0, 0, false, false, 0, 0, true, 0⟩ false false

/-- C10: when `MaxSize` is 0 the effective size cap used by every write and
rotation decision is 100 megabytes (`defaultMaxSize * megabyte` bytes),
not zero and not unbounded. -/
theorem default_cap_100mb (l : Logger) (p : List Nat) (h : l.MaxSize = 0) :
    l.max = 104857600 ∧
      (writeRejects l p ↔ 104857600 < (p.length : Int)) ∧
      (sizeRotateDue l p.length ↔ 104857600 < l.size + (p.length : Int)) ∧
      (∀ info : FSEntry, openRotateDue l info p.length ↔
        104857600 ≤ info.sz + (p.length : Int)) := by
  have hm : l.max = 104857600 := by
    rw [Logger.max, if_pos h]
    norm_num [defaultMaxSize, megabyte]
  exact ⟨hm, by simp [writeRejects, hm], by simp [sizeRotateDue, hm],
    fun info => by simp [openRotateDue, hm]⟩

/-- Witness for `default_cap_100mb` at a concrete zero-`MaxSize` logger. -/
theorem default_cap_100mb_witness :
    (⟨"foo.log".toList, 0, 0, 0, false, false, 0, 0, false, 0⟩ : Logger).max
      = 104857600 :=
  (default_cap_100mb ⟨"foo.log".toList, 0, 0, 0, false, false, 0, 0, false, 0⟩
    [] rfl).1

/-- C3: every backup filename produced by a rotation has the exact form
`<prefix>-<timestamp>-<reason><ext>`: the base name's prefix, then the
instant rendered under the configured layout, then a reason that is one of
"size" or "time", then the extension (prefix and extension reassembling
the base name); compression appends exactly the fixed suffix `.gz`. -/
theorem backup_name_format (base : List Char) (localFlag : Bool)
    (tLoc tUtc : DateTime) (r : Reason) (dir : List FSEntry) (f : logInfo)
    (hgz : (statFind dir (f.name ++ compressSuffix)).any (fun d => d.isDir)
      = false) :
    backupNameAt base localFlag tLoc tUtc r
        = basePfx base ++ '-' :: (fmtTs (if localFlag then tLoc else tUtc)
            ++ '-' :: (reasonToken r ++ extOf base)) ∧
      basePfx base ++ extOf base = base ∧
      (reasonToken r = ['s', 'i', 'z', 'e'] ∨
        reasonToken r = ['t', 'i', 'm', 'e']) ∧
      (⟨f.name ++ compressSuffix, false, 0⟩ : FSEntry) ∈ applyCompress dir f := by
  refine ⟨rfl, basePfx_append_extOf base, ?_, ?_⟩
  · cases r
    · exact Or.inl rfl
    · exact Or.inr rfl
  · rw [applyCompress, if_neg (by simp [hgz])]
    exact List.mem_append_right _ (by simp)

/-- Witness for `backup_name_format`: compressing a backup in an empty
directory creates exactly the `.gz`-suffixed counterpart. -/
theorem backup_name_format_witness :
    (⟨"x".toList ++ compressSuffix, false, 0⟩ : FSEntry)
      ∈ applyCompress [] ⟨"x".toList, 5⟩ :=
  (backup_name_format "foo.log".toList false ⟨2020, 1, 1, 0, 0, 0, 0⟩
    ⟨2020, 1, 1, 0, 0, 0, 0⟩ Reason.size [] ⟨"x".toList, 5⟩ (by decide)).2.2.2

/-- C6: decoding the backup filename produced by encoding a base name, a
reason and an instant yields exactly that instant (and no error), under
the same local-time flag and the same (fixed) timestamp layout. -/
theorem backup_name_roundtrip (base : List Char) (localFlag : Bool)
    (tLoc tUtc : DateTime) (r : Reason)
    (hv : (if localFlag then tLoc else tUtc).Valid) :
    timeFromNameSpec (backupNameAt base localFlag tLoc tUtc r)
        (basePfx base ++ ['-']) (extOf base)
      = Except.ok (if localFlag then tLoc else tUtc) := by
  have hshape : backupNameAt base localFlag tLoc tUtc r
      = (basePfx base ++ ['-']) ++
          (((fmtTs (if localFlag then tLoc else tUtc) ++
            '-' :: reasonToken r)) ++ extOf base) := by
    simp [backupNameAt, backupNameSpec, List.append_assoc]
  rw [hshape, timeFromNameSpec_encode, splitLast_append_last (reasonToken_no_dash r)]
  simp [parseTs_fmtTs _ hv]

/-- Witness for `backup_name_roundtrip` at a concrete instant under the
UTC flag. -/
theorem backup_name_roundtrip_witness :
    timeFromNameSpec (backupNameAt "foo.log".toList false
        ⟨2020, 1, 2, 3, 4, 5, 6⟩ ⟨2020, 1, 2, 3, 4, 5, 6⟩ Reason.size)
        (basePfx "foo.log".toList ++ ['-']) (extOf "foo.log".toList)
      = Except.ok ⟨2020, 1, 2, 3, 4, 5, 6⟩ :=
  backup_name_roundtrip "foo.log".toList false _ _ Reason.size (by decide)

/-- C2: on a write, the interval condition is evaluated before the size
condition, so when both hold simultaneously the write performs exactly one
rotation, stamped "time": the rotation trace is `[time]`, the single
backup created is the time-stamped name, and that filename's reason token
decodes to "time" (not "size"). -/
theorem rotation_priority_time_over_size (l : Logger) (fs : List FSEntry)
    (now : DateTime) (p : List Nat) (info : FSEntry)
    (hopen : l.file = true)
    (hrej : ¬ writeRejects l p)
    (hint : intervalRotateDue l (epochMs now))
    (hsize : sizeRotateDue l p.length)
    (hstat : statFind fs l.Filename = some info) :
    (writeM l fs now p).reasons = [Reason.time] ∧
      (writeM l fs now p).backups = [backupNameSpec l.Filename Reason.time now] ∧
      reasonOfName (backupNameSpec l.Filename Reason.time now)
          (basePfx l.Filename ++ ['-']) (extOf l.Filename)
        = some ['t', 'i', 'm', 'e'] := by
  have hmax : ∀ lr : Logger, lr.MaxSize = l.MaxSize → lr.max = l.max := by
    intro lr h1; rw [Logger.max, h1, Logger.max]
  have hno : ∀ lr : Logger, lr.MaxSize = l.MaxSize → lr.size = 0 →
      ¬ sizeRotateDue lr p.length := by
    intro lr h1 h2 hcon
    rw [sizeRotateDue, h2, hmax lr h1] at hcon
    exact hrej (by rw [writeRejects]; omega)
  have hreason : reasonOfName (backupNameSpec l.Filename Reason.time now)
      (basePfx l.Filename ++ ['-']) (extOf l.Filename)
        = some ['t', 'i', 'm', 'e'] := by
    have hsh : backupNameSpec l.Filename Reason.time now
        = (basePfx l.Filename ++ ['-']) ++
            ((fmtTs now ++ '-' :: reasonToken Reason.time) ++ extOf l.Filename) := by
      simp [backupNameSpec, List.append_assoc]
    rw [hsh, reasonOfName_encode,
      splitLast_append_last (reasonToken_no_dash Reason.time)]
    rfl
  have hno2 : ¬ sizeRotateDue
      { l with size := 0, file := true, lastRotationTime := epochMs now }
      p.length := hno _ rfl rfl
  refine ⟨?_, ?_, hreason⟩ <;>
  · simp only [writeM, if_neg hrej, hopen, if_true, rotate, openNew]
    simp only [hstat, hint, if_true, reduceIte]
    simp [hno2, hstat]

/-- Witness for `rotation_priority_time_over_size`: a 1-second interval
elapsed ten times over while the pending write also overflows the cap. -/
theorem rotation_priority_time_over_size_witness :
    (writeM ⟨"foo.log".toList, 1, 0, 0, false, false, 1000, 1048570, true, 0⟩
        [⟨"foo.log".toList, false, 1048570⟩] ⟨2020, 1, 1, 0, 0, 10, 0⟩
        (List.replicate 100 0)).reasons = [Reason.time] :=
  (rotation_priority_time_over_size
    ⟨"foo.log".toList, 1, 0, 0, false, false, 1000, 1048570, true, 0⟩
    [⟨"foo.log".toList, false, 1048570⟩] ⟨2020, 1, 1, 0, 0, 10, 0⟩
    (List.replicate 100 0) ⟨"foo.log".toList, false, 1048570⟩
    rfl (by decide) (by decide) (by decide) (by decide)).1

/-- C8 (amended): when the logger is closed and a write of length `w`
arrives, `openExistingOrNew` (1) reopens in append mode and adopts the
on-disk size when the target exists and its size plus `w` is strictly
below the cap; (2) opens a fresh file with size counter 0 when the path
does not exist; (3) performs a full rotation first — sealing the old file
into a backup — and opens fresh with size counter 0 when the on-disk size
plus `w` reaches or exceeds the cap. -/
theorem open_existing_or_new_spec (l : Logger) (fs : List FSEntry)
    (now : DateTime) (w : Nat) :
    (∀ info, statFind fs l.Filename = some info →
      info.sz + (w : Int) < l.max →
        openExistingOrNew l fs now w
          = ⟨{ l with file := true, size := info.sz }, fs, []⟩) ∧
    (statFind fs l.Filename = none →
        openExistingOrNew l fs now w
          = ⟨{ l with file := true, size := 0 },
              fs ++ [⟨l.Filename, false, 0⟩], []⟩) ∧
    (∀ info, statFind fs l.Filename = some info →
      l.max ≤ info.sz + (w : Int) →
        (openExistingOrNew l fs now w).lg.size = 0 ∧
        (openExistingOrNew l fs now w).lg.file = true ∧
        (openExistingOrNew l fs now w).backups
          = [backupNameSpec l.Filename Reason.size now]) := by
  refine ⟨?_, ?_, ?_⟩
  · intro info hstat hlt
    have hnd : ¬ openRotateDue l info w := by rw [openRotateDue]; omega
    simp [openExistingOrNew, hstat, hnd]
  · intro hstat
    simp [openExistingOrNew, hstat, openNew]
  · intro info hstat hge
    have hd : openRotateDue l info w := by rw [openRotateDue]; omega
    simp [openExistingOrNew, hstat, hd, rotate, openNew]

/-- Witness for `open_existing_or_new_spec`, append branch: on-disk size
1048570 plus write 5 stays below the 1-megabyte cap, so the file is
reopened and its size adopted. -/
theorem open_existing_or_new_spec_witness :
    openExistingOrNew ⟨"foo.log".toList, 1, 0, 0, false, false, 0, 0, false, 0⟩
        [⟨"foo.log".toList, false, 1048570⟩] ⟨2020, 1, 1, 0, 0, 0, 0⟩ 5
      = ⟨{ (⟨"foo.log".toList, 1, 0, 0, false, false, 0, 0, false, 0⟩ : Logger)
            with file := true, size := 1048570 },
          [⟨"foo.log".toList, false, 1048570⟩], []⟩ :=
  (open_existing_or_new_spec
      ⟨"foo.log".toList, 1, 0, 0, false, false, 0, 0, false, 0⟩
      [⟨"foo.log".toList, false, 1048570⟩] ⟨2020, 1, 1, 0, 0, 0, 0⟩ 5).1
    ⟨"foo.log".toList, false, 1048570⟩ (by decide) (by decide)

/-- C8 counterexample: with the on-disk size plus the pending write
exactly equal to the cap — which "would not exceed the size cap" — the
code rotates and opens fresh at size 0 instead of reopening in append
mode with the on-disk size (1048570) adopted, refuting the claim as
stated. -/
theorem open_boundary_counterexample :
    ((1048570 : Int) + ((6 : Nat) : Int)
        ≤ (⟨"foo.log".toList, 1, 0, 0, false, false, 0, 0, false, 0⟩ : Logger).max) ∧
    statFind [⟨"foo.log".toList, false, 1048570⟩]
        (⟨"foo.log".toList, 1, 0, 0, false, false, 0, 0, false, 0⟩ : Logger).Filename
      = some ⟨"foo.log".toList, false, 1048570⟩ ∧
    (openExistingOrNew ⟨"foo.log".toList, 1, 0, 0, false, false, 0, 0, false, 0⟩
        [⟨"foo.log".toList, false, 1048570⟩] ⟨2020, 1, 1, 0, 0, 0, 0⟩ 6).lg.size
      = 0 ∧
    (openExistingOrNew ⟨"foo.log".toList, 1, 0, 0, false, false, 0, 0, false, 0⟩
        [⟨"foo.log".toList, false, 1048570⟩] ⟨2020, 1, 1, 0, 0, 0, 0⟩ 6).lg.size
      ≠ 1048570 :=
  ⟨by decide, by decide, by decide, by decide⟩

/-! ## Mill lemmas -/

lemma millRunOnce_eq (l : Logger) (dir : List FSEntry) (nowMs : Int)
    (hg : ¬ (l.MaxBackups = 0 ∧ l.MaxAge = 0 ∧ l.Compress = false)) :
    millRunOnce l dir nowMs = ⟨oldLogFiles l dir,
      (millCountPass l (oldLogFiles l dir)).2 ++
        (millAgePass l (millCountPass l (oldLogFiles l dir)).1 nowMs).2,
      millCompressList l
        (millAgePass l (millCountPass l (oldLogFiles l dir)).1 nowMs).1,
      (millCompressList l
          (millAgePass l (millCountPass l (oldLogFiles l dir)).1 nowMs).1).foldl
        applyCompress
        (dir.filter (fun e => !decide (e.name ∈
          ((millCountPass l (oldLogFiles l dir)).2 ++
            (millAgePass l (millCountPass l (oldLogFiles l dir)).1 nowMs).2).map
              logInfo.name)))⟩ := by
  rw [millRunOnce, if_neg hg]

lemma millSplit_cover (maxB : Nat) (fs : List logInfo) :
    ∀ (pres : List (List Char)) (f : logInfo), f ∈ fs →
      f ∈ (millSplit maxB pres fs).1 ∨ f ∈ (millSplit maxB pres fs).2 := by
  induction fs with
  | nil => intro pres f hf; simp at hf
  | cons g gs ih =>
      intro pres f hf
      rcases List.mem_cons.mp hf with rfl | hf2
      · by_cases hc : maxB < (presInsert pres (trimGz f.name)).length
        · right; simp [millSplit, hc]
        · left; simp [millSplit, hc]
      · by_cases hc : maxB < (presInsert pres (trimGz g.name)).length
        · rcases ih (presInsert pres (trimGz g.name)) f hf2 with h1 | h2
          · left; simp [millSplit, hc, h1]
          · right; simp [millSplit, hc, h2]
        · rcases ih (presInsert pres (trimGz g.name)) f hf2 with h1 | h2
          · left; simp [millSplit, hc, h1]
          · right; simp [millSplit, hc, h2]

lemma millSplit_subset (maxB : Nat) (fs : List logInfo) :
    ∀ (pres : List (List Char)) (f : logInfo),
      (f ∈ (millSplit maxB pres fs).1 → f ∈ fs) ∧
      (f ∈ (millSplit maxB pres fs).2 → f ∈ fs) := by
  induction fs with
  | nil => intro pres f; simp [millSplit]
  | cons g gs ih =>
      intro pres f
      by_cases hc : maxB < (presInsert pres (trimGz g.name)).length <;>
        constructor <;> intro hf
      · simp only [millSplit, if_pos hc] at hf
        exact List.mem_cons_of_mem _ ((ih _ f).1 hf)
      · simp only [millSplit, if_pos hc] at hf
        rcases List.mem_cons.mp hf with rfl | hf2
        · exact List.mem_cons_self _ _
        · exact List.mem_cons_of_mem _ ((ih _ f).2 hf2)
      · simp only [millSplit, if_neg hc] at hf
        rcases List.mem_cons.mp hf with rfl | hf2
        · exact List.mem_cons_self _ _
        · exact List.mem_cons_of_mem _ ((ih _ f).1 hf2)
      · simp only [millSplit, if_neg hc] at hf
        exact List.mem_cons_of_mem _ ((ih _ f).2 hf)

lemma millCountPass_cover (l : Logger) (files0 : List logInfo) (f : logInfo)
    (hf : f ∈ files0) :
    f ∈ (millCountPass l files0).1 ∨ f ∈ (millCountPass l files0).2 := by
  rw [millCountPass]
  by_cases hg : 0 < l.MaxBackups ∧ l.MaxBackups < files0.length
  · rw [if_pos hg]; exact millSplit_cover _ _ _ f hf
  · rw [if_neg hg]; exact Or.inl hf

lemma millCountPass_subset (l : Logger) (files0 : List logInfo) (f : logInfo) :
    (f ∈ (millCountPass l files0).1 → f ∈ files0) ∧
    (f ∈ (millCountPass l files0).2 → f ∈ files0) := by
  rw [millCountPass]
  by_cases hg : 0 < l.MaxBackups ∧ l.MaxBackups < files0.length
  · rw [if_pos hg]; exact millSplit_subset _ _ _ f
  · rw [if_neg hg]; exact ⟨fun h => h, fun h => by simp at h⟩

lemma mem_oldLogFiles_iff (l : Logger) (dir : List FSEntry) (f : logInfo) :
    f ∈ oldLogFiles l dir ↔ ∃ e ∈ dir, classify l e = some f := by
  rw [oldLogFiles, (List.perm_insertionSort keyGE _).mem_iff, List.mem_filterMap]

/-- C5: with `MaxAge = D > 0`, one mill cycle marks for deletion every
backup whose rotation instant lies more than `D*24h` before now — whatever
`MaxBackups` is, i.e. even when the count cap alone would have retained
it. -/
theorem mill_age_removal (l : Logger) (dir : List FSEntry) (nowMs : Int)
    (e : FSEntry) (f : logInfo)
    (hD : 0 < l.MaxAge)
    (he : e ∈ dir)
    (hcl : classify l e = some f)
    (hold : f.timestamp < nowMs - 86400000 * (l.MaxAge : Int)) :
    f ∈ (millRunOnce l dir nowMs).remove := by
  have hg : ¬ (l.MaxBackups = 0 ∧ l.MaxAge = 0 ∧ l.Compress = false) := by
    rintro ⟨-, h2, -⟩; omega
  rw [millRunOnce_eq l dir nowMs hg]
  have hf0 : f ∈ oldLogFiles l dir :=
    (mem_oldLogFiles_iff l dir f).mpr ⟨e, he, hcl⟩
  rcases millCountPass_cover l (oldLogFiles l dir) f hf0 with hke | hrm
  · refine List.mem_append_right _ ?_
    rw [millAgePass, if_pos hD]
    simp only [List.mem_filter]
    exact ⟨hke, by simpa using hold⟩
  · exact List.mem_append_left _ hrm

lemma classify_name {l : Logger} {e : FSEntry} {f : logInfo}
    (h : classify l e = some f) : f.name = e.name := by
  rw [classify] at h
  by_cases hd : e.isDir = true
  · rw [if_pos hd] at h; simp at h
  · rw [if_neg hd] at h
    cases h1 : timeFromName e.name l.prefixAndExt.1 l.prefixAndExt.2 with
    | ok t =>
        rw [h1] at h
        simp only [Option.some.injEq] at h
        rw [← h]
    | error er =>
        rw [h1] at h
        cases h2 : timeFromName e.name l.prefixAndExt.1
            (l.prefixAndExt.2 ++ compressSuffix) with
        | ok t =>
            rw [h2] at h
            simp only [Option.some.injEq] at h
            rw [← h]
        | error er2 => rw [h2] at h; simp at h

lemma classify_isDir_none {l : Logger} {e : FSEntry} (hd : e.isDir = true) :
    classify l e = none := by
  rw [classify, if_pos hd]

/-- A backup classified without the compression suffix on its name must
have decoded under the plain extension. -/
lemma classify_ok_ext {l : Logger} {e : FSEntry} {f : logInfo}
    (h : classify l e = some f) (hgz : ¬ compressSuffix <:+ f.name) :
    ∃ t, timeFromName e.name l.prefixAndExt.1 l.prefixAndExt.2 = .ok t := by
  have hname := classify_name h
  rw [classify] at h
  by_cases hd : e.isDir = true
  · rw [if_pos hd] at h; simp at h
  · rw [if_neg hd] at h
    cases h1 : timeFromName e.name l.prefixAndExt.1 l.prefixAndExt.2 with
    | ok t => exact ⟨t, rfl⟩
    | error er =>
        rw [h1] at h
        cases h2 : timeFromName e.name l.prefixAndExt.1
            (l.prefixAndExt.2 ++ compressSuffix) with
        | ok t =>
            exfalso
            obtain ⟨mid, hmid, -⟩ := (timeFromName_ok_iff _ _ _ _).mp h2
            apply hgz
            rw [hname, hmid]
            exact ⟨l.prefixAndExt.1 ++ (mid ++ l.prefixAndExt.2),
              by simp [List.append_assoc]⟩
        | error er2 => rw [h2] at h; simp at h

lemma nodup_name_inj {dir : List FSEntry} (hnd : (dir.map FSEntry.name).Nodup)
    {a b : FSEntry} (ha : a ∈ dir) (hb : b ∈ dir) (hab : a.name = b.name) :
    a = b :=
  List.inj_on_of_nodup_map hnd ha hb hab

lemma statFind_mem_unique {d : List FSEntry} {e : FSEntry}
    (hnd : (d.map FSEntry.name).Nodup) (he : e ∈ d) :
    statFind d e.name = some e := by
  induction d with
  | nil => simp at he
  | cons x xs ih =>
      rw [List.map_cons, List.nodup_cons] at hnd
      rcases List.mem_cons.mp he with rfl | he2
      · rw [statFind]
        exact List.find?_cons_of_pos _ (by simp)
      · have hxf : (x.name == e.name) = false := by
          simp only [beq_eq_false_iff_ne, ne_eq]
          intro hcontra
          exact hnd.1 (hcontra ▸ List.mem_map_of_mem _ he2)
        rw [statFind, List.find?_cons, hxf]
        exact ih hnd.2 he2

/-- An entry that classifies to nothing survives one `compressLogFile`
step whose source is a decodable, differently-named backup; name-nodup is
preserved. -/
lemma applyCompress_keeps (l : Logger) {d : List FSEntry} {e : FSEntry}
    {f : logInfo}
    (hnd : (d.map FSEntry.name).Nodup) (he : e ∈ d)
    (hbadd : classify l e = none)
    (hfok : ∃ t, timeFromName f.name l.prefixAndExt.1 l.prefixAndExt.2 = .ok t)
    (hne : e.name ≠ f.name) :
    e ∈ applyCompress d f ∧ (((applyCompress d f).map FSEntry.name).Nodup) := by
  rw [applyCompress]
  by_cases hdir :
      ((statFind d (f.name ++ compressSuffix)).any (fun x => x.isDir)) = true
  · rw [if_pos hdir]; exact ⟨he, hnd⟩
  · rw [if_neg hdir]
    have hne2 : e.name ≠ f.name ++ compressSuffix := by
      intro heq
      have hsf : statFind d e.name = some e := statFind_mem_unique hnd he
      rw [heq] at hsf
      rw [hsf] at hdir
      have hedir : e.isDir = false := by simpa [Option.any] using hdir
      obtain ⟨t, ht⟩ := hfok
      have hgzok := timeFromName_gz _ _ _ _ ht
      rw [← heq] at hgzok
      rw [classify, if_neg (by simp [hedir])] at hbadd
      cases h1 : timeFromName e.name l.prefixAndExt.1 l.prefixAndExt.2 with
      | ok t2 => rw [h1] at hbadd; simp at hbadd
      | error er => rw [h1, hgzok] at hbadd; simp at hbadd
    constructor
    · refine List.mem_append_left _ ?_
      rw [List.mem_filter]
      exact ⟨he, by simp [hne, hne2]⟩
    · rw [List.map_append]
      apply List.Nodup.append
      · exact hnd.sublist ((List.filter_sublist _).map _)
      · simp
      · intro a ha hb
        simp only [List.map_cons, List.map_nil, List.mem_singleton] at hb
        obtain ⟨x, hx, hxa⟩ := List.mem_map.mp ha
        rw [List.mem_filter] at hx
        have := hx.2
        simp only [Bool.and_eq_true, Bool.not_eq_eq_eq_not, Bool.not_true,
          decide_eq_false_iff_not] at this
        exact this.1 (by rw [hxa, hb])

lemma foldl_applyCompress_preserves (l : Logger) (e : FSEntry)
    (hbadd : classify l e = none) :
    ∀ (cs : List logInfo) (d : List FSEntry),
      (∀ f ∈ cs, (∃ t, timeFromName f.name l.prefixAndExt.1 l.prefixAndExt.2
          = .ok t) ∧ e.name ≠ f.name) →
      e ∈ d → (d.map FSEntry.name).Nodup →
      e ∈ cs.foldl applyCompress d ∧
        ((cs.foldl applyCompress d).map FSEntry.name).Nodup := by
  intro cs
  induction cs with
  | nil => intro d _ he hnd; exact ⟨he, hnd⟩
  | cons f fs ih =>
      intro d hcs he hnd
      rw [List.foldl_cons]
      obtain ⟨hfok, hne⟩ := hcs f (List.mem_cons_self _ _)
      obtain ⟨he2, hnd2⟩ := applyCompress_keeps l hnd he hbadd hfok hne
      exact ih _ (fun g hg => hcs g (List.mem_cons_of_mem _ hg)) he2 hnd2

/-- One mill cycle keeps an unclassifiable entry and preserves name-nodup. -/
lemma millCycle_preserves (l : Logger) (nowMs : Int) (dir : List FSEntry)
    (e : FSEntry)
    (hnd : (dir.map FSEntry.name).Nodup) (he : e ∈ dir)
    (hbad : classify l e = none) :
    e ∈ millCycle l nowMs dir ∧
      ((millCycle l nowMs dir).map FSEntry.name).Nodup := by
  rw [millCycle]
  by_cases hg : l.MaxBackups = 0 ∧ l.MaxAge = 0 ∧ l.Compress = false
  · rw [millRunOnce, if_pos hg]; exact ⟨he, hnd⟩
  · rw [millRunOnce_eq l dir nowMs hg]
    have hrm : ∀ g, g ∈ (millCountPass l (oldLogFiles l dir)).2 ++
        (millAgePass l (millCountPass l (oldLogFiles l dir)).1 nowMs).2 →
        ∃ e2 ∈ dir, classify l e2 = some g := by
      intro g hgmem
      rcases List.mem_append.mp hgmem with h1 | h2
      · exact (mem_oldLogFiles_iff l dir g).mp
          ((millCountPass_subset l (oldLogFiles l dir) g).2 h1)
      · have hg1 : g ∈ (millCountPass l (oldLogFiles l dir)).1 := by
          rw [millAgePass] at h2
          by_cases hA : 0 < l.MaxAge
          · rw [if_pos hA] at h2; exact (List.mem_filter.mp h2).1
          · rw [if_neg hA] at h2; simp at h2
        exact (mem_oldLogFiles_iff l dir g).mp
          ((millCountPass_subset l (oldLogFiles l dir) g).1 hg1)
    have hnotin : ¬ e.name ∈ ((millCountPass l (oldLogFiles l dir)).2 ++
        (millAgePass l (millCountPass l (oldLogFiles l dir)).1 nowMs).2).map
          logInfo.name := by
      intro hmem
      obtain ⟨g, hg2, hgname⟩ := List.mem_map.mp hmem
      obtain ⟨e2, he2, hcl2⟩ := hrm g hg2
      have hname : e2.name = e.name := by rw [← classify_name hcl2, hgname]
      rw [nodup_name_inj hnd he2 he hname] at hcl2
      rw [hcl2] at hbad
      simp at hbad
    have he1 : e ∈ dir.filter (fun x => !decide (x.name ∈
        ((millCountPass l (oldLogFiles l dir)).2 ++
          (millAgePass l (millCountPass l (oldLogFiles l dir)).1 nowMs).2).map
            logInfo.name)) :=
      List.mem_filter.mpr ⟨he, by simpa using hnotin⟩
    have hnd1 : ((dir.filter (fun x => !decide (x.name ∈
        ((millCountPass l (oldLogFiles l dir)).2 ++
          (millAgePass l (millCountPass l (oldLogFiles l dir)).1 nowMs).2).map
            logInfo.name))).map FSEntry.name).Nodup :=
      hnd.sublist ((List.filter_sublist _).map _)
    have hcs : ∀ f ∈ millCompressList l
        (millAgePass l (millCountPass l (oldLogFiles l dir)).1 nowMs).1,
        (∃ t, timeFromName f.name l.prefixAndExt.1 l.prefixAndExt.2 = .ok t) ∧
          e.name ≠ f.name := by
      intro f hf
      have hfprop : f ∈ (millAgePass l
          (millCountPass l (oldLogFiles l dir)).1 nowMs).1 ∧
          ¬ compressSuffix <:+ f.name := by
        rw [millCompressList] at hf
        by_cases hC : l.Compress = true
        · rw [if_pos hC] at hf
          have hmf := List.mem_filter.mp hf
          exact ⟨hmf.1, by simpa using hmf.2⟩
        · rw [if_neg hC] at hf; simp at hf
      have hf1 : f ∈ (millCountPass l (oldLogFiles l dir)).1 := by
        have h3 := hfprop.1
        rw [millAgePass] at h3
        by_cases hA : 0 < l.MaxAge
        · rw [if_pos hA] at h3; exact (List.mem_filter.mp h3).1
        · rw [if_neg hA] at h3; exact h3
      obtain ⟨e2, he2, hcl2⟩ := (mem_oldLogFiles_iff l dir f).mp
        ((millCountPass_subset l (oldLogFiles l dir) f).1 hf1)
      constructor
      · obtain ⟨t, ht⟩ := classify_ok_ext hcl2 hfprop.2
        exact ⟨t, by rw [classify_name hcl2]; exact ht⟩
      · intro heq
        have hname : e2.name = e.name := by rw [← classify_name hcl2, ← heq]
        rw [nodup_name_inj hnd he2 he hname] at hcl2
        rw [hcl2] at hbad
        simp at hbad
    exact foldl_applyCompress_preserves l e hbad _ _ hcs he1 hnd1

/-- C7: decoding is strict — a name with the wrong prefix, the wrong
extension (even allowing the optional compression suffix, which is handled
by a second decode attempt), or an unparsable embedded substring yields an
error, never a best-effort timestamp — and consequently a directory, or an
entry whose name fails to classify as a backup, survives any number of
mill cycles untouched: it is never deleted and never compressed. -/
theorem foreign_names_untouched (l : Logger) (dir : List FSEntry)
    (nowMs : Int) (e : FSEntry)
    (hnd : (dir.map FSEntry.name).Nodup) (he : e ∈ dir)
    (hbad : e.isDir = true ∨ classify l e = none) :
    (∀ nm pfxA extA : List Char, ¬ pfxA <+: nm →
        timeFromName nm pfxA extA = .error .mismatchedPfx) ∧
    (∀ nm pfxA extA : List Char, pfxA <+: nm → ¬ extA <:+ nm →
        timeFromName nm pfxA extA = .error .mismatchedExt) ∧
    (∀ pfxA mid extA : List Char, parseTs mid = none →
        timeFromName (pfxA ++ (mid ++ extA)) pfxA extA = .error .badTime) ∧
    (∀ n : Nat, e ∈ (millCycle l nowMs)^[n] dir) := by
  refine ⟨?_, ?_, ?_, ?_⟩
  · intro nm pfxA extA h; rw [timeFromName, if_neg h]
  · intro nm pfxA extA h1 h2; rw [timeFromName, if_pos h1, if_neg h2]
  · intro pfxA mid extA h; rw [timeFromName_encode, h]
  · have hbad2 : classify l e = none := by
      rcases hbad with h | h
      · exact classify_isDir_none h
      · exact h
    have main : ∀ (n : Nat) (d : List FSEntry),
        (d.map FSEntry.name).Nodup → e ∈ d →
        e ∈ (millCycle l nowMs)^[n] d := by
      intro n
      induction n with
      | zero => intro d _ he2; simpa using he2
      | succ k ih =>
          intro d hnd2 he2
          rw [Function.iterate_succ_apply]
          obtain ⟨he3, hnd3⟩ := millCycle_preserves l nowMs d e hnd2 he2 hbad2
          exact ih _ hnd3 he3
    exact fun n => main n dir hnd he

/-- Witness for `foreign_names_untouched`: an unrelated file survives two
mill cycles of a compressing, count-capped logger. -/
theorem foreign_names_untouched_witness :
    (⟨"unrelated.txt".toList, false, 3⟩ : FSEntry)
      ∈ (millCycle ⟨"foo.log".toList, 1, 0, 1, false, true, 0, 0, false, 0⟩ 0)^[2]
          [⟨"unrelated.txt".toList, false, 3⟩,
            ⟨"foo-2020-01-01T00-00-00.000.log".toList, false, 7⟩] :=
  (foreign_names_untouched ⟨"foo.log".toList, 1, 0, 1, false, true, 0, 0, false, 0⟩
    [⟨"unrelated.txt".toList, false, 3⟩,
      ⟨"foo-2020-01-01T00-00-00.000.log".toList, false, 7⟩] 0
    ⟨"unrelated.txt".toList, false, 3⟩
    (by decide) (by decide) (Or.inr (by decide))).2.2.2 2

/-- The distinct instants carried by a list of classified backups. -/
def keysOf (fs : List logInfo) : Finset Int :=
  (fs.map logInfo.timestamp).toFinset

/-- How many distinct instants in `K` are strictly newer than `x`. -/
def rankLT (K : Finset Int) (x : Int) : Nat :=
  (K.filter (fun k => x < k)).card

lemma sorted_cons_ts {g : logInfo} {gs : List logInfo}
    (h : List.Sorted keyGE (g :: gs)) :
    ∀ f ∈ gs, f.timestamp ≤ g.timestamp :=
  fun f hf => (List.sorted_cons.mp h).1 f hf

/-- Characterization of the MaxBackups pass: a file is kept exactly when
fewer than `N` distinct instants (among the accumulator `K` and the list)
are newer than its own. -/
lemma millSplit_char (N : Nat) :
    ∀ (fs : List logInfo) (pres : List (List Char)) (K : Finset Int),
      pres.length = K.card →
      (∀ f ∈ fs, (trimGz f.name ∈ pres ↔ f.timestamp ∈ K)) →
      (∀ f ∈ fs, ∀ k ∈ K, f.timestamp ≤ k) →
      List.Sorted keyGE fs →
      (∀ f ∈ fs, ∀ g ∈ fs,
        (trimGz f.name = trimGz g.name ↔ f.timestamp = g.timestamp)) →
      (fs.map logInfo.name).Nodup →
      ∀ f ∈ fs,
        (f ∈ (millSplit N pres fs).1 ↔
          rankLT (K ∪ keysOf fs) f.timestamp < N) ∧
        (f ∈ (millSplit N pres fs).2 ↔
          N ≤ rankLT (K ∪ keysOf fs) f.timestamp) := by
  intro fs
  induction fs with
  | nil => intro pres K _ _ _ _ _ _ f hf; simp at hf
  | cons g gs ih =>
      intro pres K hlen hmem hbound hsort hnames hnodup f hf
      have hgmem := hmem g (List.mem_cons_self _ _)
      have hgbound := hbound g (List.mem_cons_self _ _)
      have hts := sorted_cons_ts hsort
      rw [List.map_cons, List.nodup_cons] at hnodup
      have hgnotin : g ∉ gs := fun hc => hnodup.1 (List.mem_map_of_mem _ hc)
      -- the union of keys is the same viewed from the head or the tail step
      have hsets : K ∪ keysOf (g :: gs)
          = insert g.timestamp K ∪ keysOf gs := by
        simp only [keysOf, List.map_cons, List.toFinset_cons,
          Finset.union_insert, Finset.insert_union]
      -- the head's rank: only accumulator keys can be newer
      have hrankg : rankLT (K ∪ keysOf (g :: gs)) g.timestamp
          = (K.filter (fun k => g.timestamp < k)).card := by
        rw [rankLT]
        congr 1
        ext k
        simp only [Finset.mem_filter, Finset.mem_union]
        constructor
        · rintro ⟨hk | hk, hlt⟩
          · exact ⟨hk, hlt⟩
          · exfalso
            rw [keysOf, List.mem_toFinset, List.mem_map] at hk
            obtain ⟨f2, hf2, rfl⟩ := hk
            rcases List.mem_cons.mp hf2 with rfl | hf3
            · exact lt_irrefl _ hlt
            · exact absurd hlt (not_lt.mpr (hts f2 hf3))
        · rintro ⟨hk, hlt⟩
          exact ⟨Or.inl hk, hlt⟩
      -- invariants for the recursive call
      have hlen2 : (presInsert pres (trimGz g.name)).length
          = (insert g.timestamp K).card := by
        rw [presInsert]
        by_cases hin : trimGz g.name ∈ pres
        · rw [if_pos hin, hlen,
            Finset.insert_eq_self.mpr (hgmem.mp hin)]
        · rw [if_neg hin, List.length_append, List.length_cons, List.length_nil,
            hlen, Finset.card_insert_of_not_mem (fun hc => hin (hgmem.mpr hc))]
      have hmem2 : ∀ f2 ∈ gs, (trimGz f2.name ∈ presInsert pres (trimGz g.name)
          ↔ f2.timestamp ∈ insert g.timestamp K) := by
        intro f2 hf2
        have hboth := hnames f2 (List.mem_cons_of_mem _ hf2) g
          (List.mem_cons_self _ _)
        rw [presInsert]
        by_cases hin : trimGz g.name ∈ pres
        · rw [if_pos hin, Finset.insert_eq_self.mpr (hgmem.mp hin)]
          exact hmem f2 (List.mem_cons_of_mem _ hf2)
        · rw [if_neg hin]
          rw [List.mem_append, List.mem_singleton, Finset.mem_insert]
          rw [hmem f2 (List.mem_cons_of_mem _ hf2), hboth]
          tauto
      have hbound2 : ∀ f2 ∈ gs, ∀ k ∈ insert g.timestamp K,
          f2.timestamp ≤ k := by
        intro f2 hf2 k hk
        rcases Finset.mem_insert.mp hk with rfl | hk2
        · exact hts f2 hf2
        · exact hbound f2 (List.mem_cons_of_mem _ hf2) k hk2
      have hsort2 : List.Sorted keyGE gs := (List.sorted_cons.mp hsort).2
      have hnames2 : ∀ f2 ∈ gs, ∀ g2 ∈ gs,
          (trimGz f2.name = trimGz g2.name ↔ f2.timestamp = g2.timestamp) :=
        fun f2 hf2 g2 hg2 => hnames f2 (List.mem_cons_of_mem _ hf2) g2
          (List.mem_cons_of_mem _ hg2)
      have ihg := ih (presInsert pres (trimGz g.name)) (insert g.timestamp K)
        hlen2 hmem2 hbound2 hsort2 hnames2 hnodup.2
      -- the head's keep/remove decision agrees with its rank
      have hcond : (N < (presInsert pres (trimGz g.name)).length)
          ↔ N ≤ rankLT (K ∪ keysOf (g :: gs)) g.timestamp := by
        rw [hlen2, hrankg]
        by_cases hin : g.timestamp ∈ K
        · rw [Finset.insert_eq_self.mpr hin]
          have hfe : K.filter (fun k => g.timestamp < k)
              = K.erase g.timestamp := by
            ext k
            simp only [Finset.mem_filter, Finset.mem_erase]
            constructor
            · rintro ⟨hk, hlt⟩; exact ⟨ne_of_gt hlt, hk⟩
            · rintro ⟨hne, hk⟩
              exact ⟨hk, lt_of_le_of_ne (hgbound k hk) (Ne.symm hne)⟩
          rw [hfe, Finset.card_erase_of_mem hin]
          have h1 : 1 ≤ K.card := Finset.card_pos.mpr ⟨_, hin⟩
          omega
        · rw [Finset.card_insert_of_not_mem hin]
          have hfe : K.filter (fun k => g.timestamp < k) = K := by
            ext k
            simp only [Finset.mem_filter, and_iff_left_iff_imp]
            intro hk
            exact lt_of_le_of_ne (hgbound k hk)
              (fun hc => hin (hc ▸ hk))
          rw [hfe]
          omega
      rcases List.mem_cons.mp hf with rfl | hf2
      · -- the head itself
        by_cases hc : N < (presInsert pres (trimGz f.name)).length
        · constructor
          · rw [millSplit, if_pos hc]
            constructor
            · intro hmem3
              exact absurd ((millSplit_subset N gs _ f).1 hmem3) hgnotin
            · intro hrk
              have h2 := hcond.mp hc
              omega
          · rw [millSplit, if_pos hc]
            simp only [List.mem_cons, true_or, true_iff]
            exact hcond.mp hc
        · constructor
          · rw [millSplit, if_neg hc]
            simp only [List.mem_cons, true_or, true_iff]
            have h2 : ¬ N ≤ rankLT (K ∪ keysOf (f :: gs)) f.timestamp :=
              fun hrk => hc (hcond.mpr hrk)
            omega
          · rw [millSplit, if_neg hc]
            constructor
            · intro hmem3
              exact absurd ((millSplit_subset N gs _ f).2 hmem3) hgnotin
            · intro hrk
              exact absurd (hcond.mpr hrk) hc
      · -- a tail element
        have hfneg : f ≠ g := fun hc => hgnotin (hc ▸ hf2)
        have hsets2 : rankLT (K ∪ keysOf (g :: gs)) f.timestamp
            = rankLT (insert g.timestamp K ∪ keysOf gs) f.timestamp := by
          rw [hsets]
        have ihf := ihg f hf2
        by_cases hc : N < (presInsert pres (trimGz g.name)).length
        · constructor
          · rw [millSplit, if_pos hc, hsets2]; exact ihf.1
          · rw [millSplit, if_pos hc, hsets2]
            rw [List.mem_cons]
            constructor
            · rintro (hc2 | hc2)
              · exact absurd hc2 hfneg
              · exact ihf.2.mp hc2
            · intro hrk; exact Or.inr (ihf.2.mpr hrk)
        · constructor
          · rw [millSplit, if_neg hc, hsets2]
            rw [List.mem_cons]
            constructor
            · rintro (hc2 | hc2)
              · exact absurd hc2 hfneg
              · exact ihf.1.mp hc2
            · intro hrk; exact Or.inr (ihf.1.mpr hrk)
          · rw [millSplit, if_neg hc, hsets2]; exact ihf.2

/-- Among the distinct instants of `S`, exactly `min N |S|` have fewer
than `N` instants newer than themselves. -/
lemma card_topN (S : Finset Int) :
    ∀ N : Nat,
      (S.filter (fun k => ((S.filter (fun j => k < j)).card < N))).card
        = min N S.card := by
  induction S using Finset.induction_on_max with
  | h0 => intro N; simp
  | step a s hmax ihs =>
      intro N
      have ha : a ∉ s := fun hc => lt_irrefl a (hmax a hc)
      have hrank_a : ((insert a s).filter (fun j => a < j)).card = 0 := by
        rw [Finset.card_eq_zero, Finset.eq_empty_iff_forall_not_mem]
        intro j hj
        rw [Finset.mem_filter, Finset.mem_insert] at hj
        rcases hj with ⟨rfl | hj2, hlt⟩
        · exact lt_irrefl _ hlt
        · exact absurd hlt (not_lt.mpr (le_of_lt (hmax _ hj2)))
      have hrank_mem : ∀ k ∈ s, ((insert a s).filter (fun j => k < j)).card
          = (s.filter (fun j => k < j)).card + 1 := by
        intro k hk
        have hset : (insert a s).filter (fun j => k < j)
            = insert a (s.filter (fun j => k < j)) := by
          ext j
          simp only [Finset.mem_filter, Finset.mem_insert]
          constructor
          · rintro ⟨rfl | hj, hlt⟩
            · exact Or.inl rfl
            · exact Or.inr ⟨hj, hlt⟩
          · rintro (rfl | ⟨hj, hlt⟩)
            · exact ⟨Or.inl rfl, hmax k hk⟩
            · exact ⟨Or.inr hj, hlt⟩
        rw [hset, Finset.card_insert_of_not_mem
          (fun hc => ha (Finset.mem_filter.mp hc).1)]
      cases N with
      | zero => simp
      | succ n =>
          have hfilter : (insert a s).filter
              (fun k => ((insert a s).filter (fun j => k < j)).card < n + 1)
              = insert a (s.filter
                  (fun k => ((s.filter (fun j => k < j)).card < n))) := by
            ext k
            simp only [Finset.mem_filter, Finset.mem_insert]
            constructor
            · rintro ⟨rfl | hk, hrank⟩
              · exact Or.inl rfl
              · right
                refine ⟨hk, ?_⟩
                rw [hrank_mem k hk] at hrank
                omega
            · rintro (rfl | ⟨hk, hrank⟩)
              · exact ⟨Or.inl rfl, by rw [hrank_a]; omega⟩
              · exact ⟨Or.inr hk, by rw [hrank_mem k hk]; omega⟩
          rw [hfilter, Finset.card_insert_of_not_mem
            (fun hc => ha (Finset.mem_filter.mp hc).1)]
          rw [ihs n, Finset.card_insert_of_not_mem ha]
          rcases Nat.le_total n s.card with hle | hle
          · rw [min_eq_left hle, min_eq_left (by omega)]
          · rw [min_eq_right hle, min_eq_right (by omega)]

/-- The rotation instant a classified entry carries (0 when unclassified). -/
def keyOf (l : Logger) (e : FSEntry) : Int :=
  ((classify l e).map logInfo.timestamp).getD 0

lemma classify_eq_keyOf {l : Logger} {e : FSEntry}
    (h : (classify l e).isSome) :
    classify l e = some ⟨e.name, keyOf l e⟩ := by
  obtain ⟨f, hf⟩ := Option.isSome_iff_exists.mp h
  have hkey : keyOf l e = f.timestamp := by rw [keyOf, hf]; rfl
  have hn := classify_name hf
  rw [hf, hkey]
  cases f with
  | mk nm ts => rw [show nm = e.name from hn]

lemma filterMap_classify_eq (l : Logger) (dir : List FSEntry)
    (hall : ∀ e ∈ dir, (classify l e).isSome) :
    dir.filterMap (classify l)
      = dir.map (fun e => (⟨e.name, keyOf l e⟩ : logInfo)) := by
  induction dir with
  | nil => rfl
  | cons x xs ih =>
      simp only [List.filterMap_cons,
        classify_eq_keyOf (hall x (List.mem_cons_self _ _)), List.map_cons]
      exact congrArg _ (ih (fun e he => hall e (List.mem_cons_of_mem _ he)))

/-- C4: with `MaxBackups = N > 0` and more than `N` logical backups with
distinct rotation instants (a backup and its gzip counterpart share the
instant embedded in their names and count as one logical backup), a single
mill cycle deletes every backup except those whose instant is among the
`N` newest: an entry survives exactly when fewer than `N` distinct
instants are newer than its own, and exactly `N` distinct instants remain
on disk. -/
theorem mill_retention_count (l : Logger) (dir : List FSEntry) (nowMs : Int)
    (N : Nat)
    (hB : l.MaxBackups = N) (hN : 0 < N)
    (hAge : l.MaxAge = 0) (hC : l.Compress = false)
    (hnd : (dir.map FSEntry.name).Nodup)
    (hall : ∀ e ∈ dir, (classify l e).isSome)
    (hnk : ∀ e1 ∈ dir, ∀ e2 ∈ dir,
      (trimGz e1.name = trimGz e2.name ↔ keyOf l e1 = keyOf l e2))
    (hM : N < ((dir.map (keyOf l)).toFinset).card) :
    (∀ e ∈ (millRunOnce l dir nowMs).newDir, e ∈ dir) ∧
    (∀ e ∈ dir, (e ∈ (millRunOnce l dir nowMs).newDir ↔
      rankLT ((dir.map (keyOf l)).toFinset) (keyOf l e) < N)) ∧
    ((millRunOnce l dir nowMs).newDir.map (keyOf l)).toFinset.card = N := by
  have hg : ¬ (l.MaxBackups = 0 ∧ l.MaxAge = 0 ∧ l.Compress = false) := by
    rintro ⟨h1, -, -⟩; omega
  set S : Finset Int := (dir.map (keyOf l)).toFinset with hS
  set fm := dir.map (fun e => (⟨e.name, keyOf l e⟩ : logInfo)) with hfm
  have hfmap : dir.filterMap (classify l) = fm := filterMap_classify_eq l dir hall
  set files0 := oldLogFiles l dir with hfiles0
  have hperm : files0.Perm fm := by
    rw [hfiles0, oldLogFiles, hfmap]
    exact List.perm_insertionSort _ _
  have hsorted : List.Sorted keyGE files0 := by
    rw [hfiles0, oldLogFiles]
    exact List.sorted_insertionSort _ _
  have hlen0 : files0.length = dir.length := by
    rw [hperm.length_eq, hfm, List.length_map]
  have hmemf : ∀ f, f ∈ files0 ↔
      ∃ e ∈ dir, f = (⟨e.name, keyOf l e⟩ : logInfo) := by
    intro f
    rw [hperm.mem_iff, hfm, List.mem_map]
    constructor
    · rintro ⟨e, he, rfl⟩; exact ⟨e, he, rfl⟩
    · rintro ⟨e, he, rfl⟩; exact ⟨e, he, rfl⟩
  have hnamesfm : fm.map logInfo.name = dir.map FSEntry.name := by
    rw [hfm, List.map_map]; rfl
  have hnames0 : (files0.map logInfo.name).Nodup := by
    refine ((hperm.map logInfo.name).nodup_iff).mpr ?_
    rw [hnamesfm]; exact hnd
  have hkeys0 : keysOf files0 = S := by
    rw [keysOf, hS]
    have hp2 : (files0.map logInfo.timestamp).Perm (dir.map (keyOf l)) := by
      have := hperm.map logInfo.timestamp
      rwa [hfm, List.map_map] at this
    ext k
    simp only [List.mem_toFinset]
    exact hp2.mem_iff
  have hnames_tf : ∀ f ∈ files0, ∀ g ∈ files0,
      (trimGz f.name = trimGz g.name ↔ f.timestamp = g.timestamp) := by
    intro f hf1 g hg1
    obtain ⟨e1, he1, rfl⟩ := (hmemf f).mp hf1
    obtain ⟨e2, he2, rfl⟩ := (hmemf g).mp hg1
    simpa using hnk e1 he1 e2 he2
  have hguard : 0 < l.MaxBackups ∧ l.MaxBackups < files0.length := by
    refine ⟨by omega, ?_⟩
    rw [hB, hlen0]
    calc N < S.card := hM
      _ ≤ (dir.map (keyOf l)).length := List.toFinset_card_le _
      _ = dir.length := List.length_map _ _
  have hcount : millCountPass l files0 = millSplit N [] files0 := by
    rw [millCountPass, if_pos hguard, hB]
  have hchar := millSplit_char N files0 [] ∅ (by simp) (by simp) (by simp)
    hsorted hnames_tf hnames0
  have hage : millAgePass l (millSplit N [] files0).1 nowMs
      = ((millSplit N [] files0).1, []) := by
    rw [millAgePass, if_neg (by omega)]
  have hcomp : millCompressList l (millSplit N [] files0).1 = [] := by
    rw [millCompressList, if_neg (by simp [hC])]
  have hnew : (millRunOnce l dir nowMs).newDir
      = dir.filter (fun e => !decide (e.name ∈
          ((millSplit N [] files0).2).map logInfo.name)) := by
    rw [millRunOnce_eq l dir nowMs hg]
    simp only [← hfiles0, hcount, hage, hcomp, List.foldl_nil, List.append_nil]
  have hnmem : ∀ e ∈ dir,
      (e.name ∈ ((millSplit N [] files0).2).map logInfo.name
        ↔ (⟨e.name, keyOf l e⟩ : logInfo) ∈ (millSplit N [] files0).2) := by
    intro e he
    constructor
    · intro hmem2
      obtain ⟨g, hgm, hgname⟩ := List.mem_map.mp hmem2
      have hg0 : g ∈ files0 := (millSplit_subset N files0 [] g).2 hgm
      obtain ⟨e2, he2, rfl⟩ := (hmemf g).mp hg0
      rw [nodup_name_inj hnd he2 he hgname] at hgm
      exact hgm
    · intro hmem2
      exact List.mem_map_of_mem logInfo.name hmem2
  have hiff : ∀ e ∈ dir, (e ∈ (millRunOnce l dir nowMs).newDir ↔
      rankLT S (keyOf l e) < N) := by
    intro e he
    rw [hnew, List.mem_filter]
    have hfe : (⟨e.name, keyOf l e⟩ : logInfo) ∈ files0 :=
      (hmemf _).mpr ⟨e, he, rfl⟩
    have hch := hchar _ hfe
    rw [Finset.empty_union, hkeys0] at hch
    dsimp only at hch
    constructor
    · rintro ⟨-, hflt⟩
      have hnin : ¬ e.name ∈ ((millSplit N [] files0).2).map logInfo.name := by
        simpa using hflt
      have hni2 : ¬ (⟨e.name, keyOf l e⟩ : logInfo) ∈ (millSplit N [] files0).2 :=
        fun hc => hnin ((hnmem e he).mpr hc)
      have hno : ¬ N ≤ rankLT S (keyOf l e) := fun hrk => hni2 (hch.2.mpr hrk)
      omega
    · intro hrk
      refine ⟨he, ?_⟩
      have hni2 : ¬ (⟨e.name, keyOf l e⟩ : logInfo) ∈ (millSplit N [] files0).2 := by
        intro hc
        have := hch.2.mp hc
        omega
      simpa using fun hc => hni2 ((hnmem e he).mp hc)
  refine ⟨?_, hiff, ?_⟩
  · intro e he
    rw [hnew] at he
    exact (List.mem_filter.mp he).1
  · have hset : ((millRunOnce l dir nowMs).newDir.map (keyOf l)).toFinset
        = S.filter (fun k => rankLT S k < N) := by
      ext k
      simp only [List.mem_toFinset, List.mem_map, Finset.mem_filter]
      constructor
      · rintro ⟨e, he2, rfl⟩
        have hed : e ∈ dir := by
          rw [hnew] at he2
          exact (List.mem_filter.mp he2).1
        refine ⟨?_, (hiff e hed).mp he2⟩
        rw [hS, List.mem_toFinset]
        exact List.mem_map_of_mem _ hed
      · rintro ⟨hkS, hrk⟩
        rw [hS, List.mem_toFinset, List.mem_map] at hkS
        obtain ⟨e, he2, rfl⟩ := hkS
        exact ⟨e, (hiff e he2).mpr hrk, rfl⟩
    rw [hset]
    exact (card_topN S N).trans (min_eq_left (le_of_lt hM))

/-- Witness for `mill_retention_count`: two distinct-instant backups with
`MaxBackups = 1` leave exactly one instant on disk. -/
theorem mill_retention_count_witness :
    ((millRunOnce ⟨"foo.log".toList, 1, 0, 1, false, false, 0, 0, false, 0⟩
        [⟨"foo-2014-05-04T14-44-33.555.log".toList, false, 3⟩,
          ⟨"foo-2015-05-04T14-44-33.555.log".toList, false, 3⟩] 0).newDir.map
        (keyOf ⟨"foo.log".toList, 1, 0, 1, false, false, 0, 0, false, 0⟩)).toFinset.card
      = 1 :=
  (mill_retention_count ⟨"foo.log".toList, 1, 0, 1, false, false, 0, 0, false, 0⟩
    [⟨"foo-2014-05-04T14-44-33.555.log".toList, false, 3⟩,
      ⟨"foo-2015-05-04T14-44-33.555.log".toList, false, 3⟩] 0 1
    rfl (by decide) rfl rfl (by decide) (by decide) (by decide) (by decide)).2.2

/-- Witness for `mill_age_removal`: `MaxAge = 1` with `MaxBackups = 5`
while the directory's single backup is two days old. -/
theorem mill_age_removal_witness :
    (⟨"foo-2020-01-01T00-00-00.000.log".toList, 1577836800000⟩ : logInfo)
      ∈ (millRunOnce ⟨"foo.log".toList, 1, 1, 5, false, false, 0, 0, false, 0⟩
          [⟨"foo-2020-01-01T00-00-00.000.log".toList, false, 7⟩]
          (1577836800000 + 2 * 86400000)).remove :=
  mill_age_removal ⟨"foo.log".toList, 1, 1, 5, false, false, 0, 0, false, 0⟩
    [⟨"foo-2020-01-01T00-00-00.000.log".toList, false, 7⟩]
    (1577836800000 + 2 * 86400000)
    ⟨"foo-2020-01-01T00-00-00.000.log".toList, false, 7⟩
    ⟨"foo-2020-01-01T00-00-00.000.log".toList, 1577836800000⟩
    (by decide) (by decide) (by decide) (by decide)

end Timberjack
